import Mathlib

/-!
Verification development for the LongCat-Image 16GB offload demo.

The repository's own code (`run_16GB_demo.py`) assembles an image-editing
pipeline whose components are loaded into host RAM and then enables a staged
device-memory offload scheduler (`enable_model_cpu_offload`), VAE tiling and
slicing (`enable_tiling` / `enable_slicing`).  The patched pipeline that
implements the scheduler itself (`pipeline_longcat_image_edit.py`, referenced
in the demo's comments) is not part of the repository snapshot, so the
scheduler, the transfer executor and the footprint reducer are modelled here
from the specification's words.  The auxiliary symlink-repair utility
(`scripts/fix_nvrtc.py`) is present in full and is embedded directly from its
source.
-/

namespace Offload

/-- Modelled from the spec: the two memory tiers of the offload design
(`Host | Accelerator`).  The spec's `InTransit` marking is never observable at
a quiescent point in the single-threaded synchronous model, where every
transfer is one atomic step, so the embedded tier type has the two resident
tiers only. -/
inductive Tier where
  | host : Tier
  | accel : Tier
deriving DecidableEq, Repr

/-- Modelled from the spec: a Resident Component record — footprint estimate
in bytes, current tier, last-used sequence number, and the weight buffer it
owns (modelled as the list of its bytes). -/
structure Component where
  footprint : Nat
  tier : Tier
  lastUsed : Nat
  weights : List Nat
deriving DecidableEq, Repr

/-- Modelled from the spec: construction-time configuration — per-tier
capacities and the Exclusivity Group definitions (each group is a list of
component ids). -/
structure SchedConfig where
  hostCap : Nat
  accelCap : Nat
  groups : List (List Nat)
deriving DecidableEq, Repr

/-- Capacity of a tier, from the configuration. -/
def SchedConfig.capacity (cfg : SchedConfig) : Tier → Nat
  | Tier.host => cfg.hostCap
  | Tier.accel => cfg.accelCap

/-- Modelled from the spec: the Memory Tier Registry state.  Components are
indexed by position in `comps` (the component id); `usedHost`/`usedAccel` are
the Registry's tracked used-bytes bookkeeping per tier; `clock` is the
sequence counter used to stamp last-used numbers. -/
structure Registry where
  comps : List Component
  usedHost : Nat
  usedAccel : Nat
  clock : Nat
deriving DecidableEq, Repr

/-- Tracked used-bytes of a tier, from the Registry bookkeeping fields. -/
def Registry.used (r : Registry) : Tier → Nat
  | Tier.host => r.usedHost
  | Tier.accel => r.usedAccel

/-- Reference sum: total footprint of the components currently resident in a
tier (the spec's "used bytes (sum of residents' footprints)"). -/
def tierLoad (t : Tier) : List Component → Nat
  | [] => 0
  | c :: cs => (if c.tier = t then c.footprint else 0) + tierLoad t cs

/-- Whether component `i` is currently resident in tier `t`. -/
def onTier (r : Registry) (i : Nat) (t : Tier) : Bool :=
  match r.comps[i]? with
  | some c => c.tier = t
  | none => false

/-- Last-used sequence number of component `i` (0 if unregistered). -/
def lastUsedOf (r : Registry) (i : Nat) : Nat :=
  match r.comps[i]? with
  | some c => c.lastUsed
  | none => 0

/-- Modelled from the spec: `wouldFit(tier, component)` — true iff the tier's
tracked used bytes plus the component's footprint stay within the tier
capacity; false for an unregistered id. -/
def wouldFit (cfg : SchedConfig) (r : Registry) (t : Tier) (cid : Nat) : Bool :=
  match r.comps[cid]? with
  | some c => r.used t + c.footprint ≤ cfg.capacity t
  | none => false

/-- Modelled from the spec: the error taxonomy — `UnknownComponent`
(programming error), `CapacityExceeded` (configuration-vs-hardware mismatch),
`AllocationFailure` (transient device condition). -/
inductive SchedError where
  | UnknownComponent : SchedError
  | CapacityExceeded : SchedError
  | AllocationFailure : SchedError
deriving DecidableEq, Repr

/-- Bookkeeping update of one tier's tracked used bytes when a component of
footprint `fp` moves from `fromT` to `toT`. -/
def adjustUsed (fromT toT t : Tier) (fp u : Nat) : Nat :=
  (if fromT = t then u - fp else u) + (if toT = t then fp else 0)

/-- Modelled from the spec: the Transfer Executor's `move(component, fromTier,
toTier)` — synchronous and atomic.  `devOk` is the success report of the
external device-transfer primitive the design consumes but does not
implement; a transfer succeeds only when the device cooperates and the
destination tier can allocate the footprint (`wouldFit`).  On success the
component record keeps the same weight bytes and only its tier changes, and
the Registry bookkeeping is updated; on any failure no state is produced, so
the caller continues from the unchanged prior Registry (atomicity).  Calling
the executor for a component not currently in `fromT`, or for an unregistered
id, is a programming error (`UnknownComponent`). -/
def move (cfg : SchedConfig) (devOk : Bool) (r : Registry) (cid : Nat)
    (fromT toT : Tier) : Except SchedError Registry :=
  match r.comps[cid]? with
  | none => Except.error SchedError.UnknownComponent
  | some c =>
    if c.tier = fromT then
      if devOk && wouldFit cfg r toT cid then
        Except.ok
          { comps := r.comps.set cid { c with tier := toT }
            usedHost := adjustUsed fromT toT Tier.host c.footprint r.usedHost
            usedAccel := adjustUsed fromT toT Tier.accel c.footprint r.usedAccel
            clock := r.clock }
      else Except.error SchedError.AllocationFailure
    else Except.error SchedError.UnknownComponent

/-- The Registry the system is in after a `move` attempt, together with the
error if the attempt failed: a failed move leaves the prior Registry in
place. -/
def moveRun (cfg : SchedConfig) (devOk : Bool) (r : Registry) (cid : Nat)
    (fromT toT : Tier) : Registry × Option SchedError :=
  match move cfg devOk r cid fromT toT with
  | Except.ok r' => (r', none)
  | Except.error e => (r, some e)

/-- Stamp component `cid` with the current clock as its last-used sequence
number and advance the clock (spec step 4 of `ensureResident`). -/
def stamp (r : Registry) (cid : Nat) : Registry :=
  match r.comps[cid]? with
  | some c =>
    { r with
      comps := r.comps.set cid { c with lastUsed := r.clock }
      clock := r.clock + 1 }
  | none => r

/-- Whether components `i` and `j` share some configured Exclusivity Group. -/
def sharesGroup (cfg : SchedConfig) (i j : Nat) : Bool :=
  cfg.groups.any fun g => g.contains i && g.contains j

/-- Modelled from the spec: the other members of the Exclusivity Group(s)
containing `cid` that are currently resident in `target` (spec step 2 of
`ensureResident`). -/
def groupPeers (cfg : SchedConfig) (r : Registry) (cid : Nat) (target : Tier) :
    List Nat :=
  (List.range r.comps.length).filter fun j =>
    j ≠ cid && sharesGroup cfg cid j && onTier r j target

/-- Insert `x` into a list sorted in ascending `key` order, keeping it
sorted. -/
def insertByKey (key : Nat → Nat) (x : Nat) : List Nat → List Nat
  | [] => [x]
  | y :: ys => if key x ≤ key y then x :: y :: ys else y :: insertByKey key x ys

/-- Insertion sort in ascending `key` order. -/
def sortByKey (key : Nat → Nat) : List Nat → List Nat
  | [] => []
  | x :: xs => insertByKey key x (sortByKey key xs)

/-- Modelled from the spec: the deterministic eviction order of
`ensureResident` — the group peers resident in the target tier, in ascending
order of last-used sequence number (least-recently-used first). -/
def evictionOrder (cfg : SchedConfig) (r : Registry) (cid : Nat)
    (target : Tier) : List Nat :=
  sortByKey (lastUsedOf r) (groupPeers cfg r cid target)

/-- Modelled from the spec: issue the evictions one by one, each a Transfer
Executor move out of `target` to the alternate tier (Host).  A failed
eviction aborts `ensureResident`; per the spec an allocation failure during
the scheduler's transfers surfaces to the caller as `CapacityExceeded`. -/
def evictAll (cfg : SchedConfig) (devOk : Bool) (r : Registry)
    (target : Tier) : List Nat → Except SchedError Registry
  | [] => Except.ok r
  | j :: js =>
    match move cfg devOk r j target Tier.host with
    | Except.ok r' => evictAll cfg devOk r' target js
    | Except.error _ => Except.error SchedError.CapacityExceeded

/-- Modelled from the spec: the Placement Scheduler's `ensureResident
(component, targetTier)` — the central operation, absent from the repository
snapshot (it lives in the patched `pipeline_longcat_image_edit.py` /
`enable_model_cpu_offload` hooks the demo script enables).  Algorithm: fast
path if already resident in the target tier; otherwise evict the group peers
resident in the target tier in LRU order, check the edge case (`wouldFit`
still false after evictions means `CapacityExceeded`), move the component in
via the Transfer Executor (any transfer failure at this point surfaces as
`CapacityExceeded`), and stamp its last-used sequence number. -/
def ensureResident (cfg : SchedConfig) (devOk : Bool) (r : Registry)
    (cid : Nat) (target : Tier) : Except SchedError Registry :=
  match r.comps[cid]? with
  | none => Except.error SchedError.UnknownComponent
  | some c =>
    if c.tier = target then Except.ok r
    else
      match evictAll cfg devOk r target (evictionOrder cfg r cid target) with
      | Except.error e => Except.error e
      | Except.ok r1 =>
        if wouldFit cfg r1 target cid then
          match move cfg devOk r1 cid c.tier target with
          | Except.ok r2 => Except.ok (stamp r2 cid)
          | Except.error _ => Except.error SchedError.CapacityExceeded
        else Except.error SchedError.CapacityExceeded

/-- One scheduler call as issued by the pipeline driver: the component, the
requested tier, and the device-transfer primitive's disposition during the
call. -/
structure Call where
  cid : Nat
  target : Tier
  devOk : Bool
deriving DecidableEq, Repr

/-- The Registry after one `ensureResident` call: the new state on success,
the unchanged state on error (no error is swallowed, but the caller
continues from the prior consistent state). -/
def applyCall (cfg : SchedConfig) (r : Registry) (k : Call) : Registry :=
  match ensureResident cfg k.devOk r k.cid k.target with
  | Except.ok r' => r'
  | Except.error _ => r

/-- The Registry after a whole sequence of `ensureResident` calls. -/
def runCalls (cfg : SchedConfig) (r : Registry) (calls : List Call) : Registry :=
  calls.foldl (applyCall cfg) r

/-- The spec's Exclusivity Group invariant: for each configured group, at
most one member is resident in the Accelerator tier. -/
def GroupExclusive (cfg : SchedConfig) (r : Registry) : Prop :=
  ∀ g ∈ cfg.groups, ∀ i ∈ g, ∀ j ∈ g,
    onTier r i Tier.accel → onTier r j Tier.accel → i = j

instance (cfg : SchedConfig) (r : Registry) : Decidable (GroupExclusive cfg r) := by
  unfold GroupExclusive
  infer_instance

/-- The Registry bookkeeping is consistent: each tier's tracked used bytes
equal the sum of its residents' footprints. -/
def UsedConsistent (r : Registry) : Prop :=
  r.usedHost = tierLoad Tier.host r.comps ∧
    r.usedAccel = tierLoad Tier.accel r.comps

instance (r : Registry) : Decidable (UsedConsistent r) := by
  unfold UsedConsistent
  infer_instance

/-- Example configuration for the spec's eviction-order scenario: one
Exclusivity Group holding components 0, 1 and 2. -/
def lruExCfg : SchedConfig := ⟨1000, 10, [[0, 1, 2]]⟩

/-- Example registry for the spec's eviction-order scenario: component 1 is
"A" (last used at sequence 1), component 0 is "B" (last used at sequence 3),
both on the Accelerator; component 2 is "C", on the Host, about to request
residency. -/
def lruExReg : Registry :=
  ⟨[⟨4, Tier.accel, 3, [7]⟩, ⟨4, Tier.accel, 1, [8]⟩, ⟨4, Tier.host, 0, [9]⟩],
    4, 8, 5⟩

/-- Modelled from the spec: the Footprint Reducer's `planDecomposition
(fullInputSize, maxSubRegionBytes)` — the tiling/slicing planner behind the
demo's `enable_tiling`/`enable_slicing` calls, whose implementation is not in
the repository snapshot.  A pure, deterministic function: it takes the
smallest number `k` of sub-regions that can each stay within the budget
(`k = ⌈n / m⌉`) and splits the input into `k` near-equal sizes (`n % k`
regions of size `n / k + 1` followed by the rest of size `n / k`). -/
def planDecomposition (n m : Nat) : List Nat :=
  let k := (n + m - 1) / m
  let q := n / k
  let rem := n % k
  List.replicate rem (q + 1) ++ List.replicate (k - rem) q

/-- Cut a buffer into consecutive sub-regions of the sizes given by a plan. -/
def splitByPlan {α : Type} : List Nat → List α → List (List α)
  | [], _ => []
  | s :: ss, xs => xs.take s :: splitByPlan ss (xs.drop s)

/-- Modelled from the spec: `applyPlan(plan, operation)` — run the operation
once per sub-region, in plan order, and merge the partial outputs in that
order. -/
def applyPlan {α β : Type} (plan : List Nat) (op : List α → List β)
    (xs : List α) : List β :=
  ((splitByPlan plan xs).map op).flatten

end Offload

namespace FixNvrtc

/-!
Embedding of `scripts/fix_nvrtc.py`.  File-system paths are modelled as lists
of characters; the `glob` results that `find_nvrtc_lib` consumes (the
site-packages directories and the `libnvrtc-builtins.so*` candidates) are
inputs of the embedded function.
-/

/-- `path.split(".so.")`: split a character list on the separator `.so.`,
left to right, non-overlapping — the Python `str.split` semantics used by
`version_key`. -/
def splitSoDot : List Char → List (List Char)
  | [] => [[]]
  | '.' :: 's' :: 'o' :: '.' :: rest => [] :: splitSoDot rest
  | c :: rest =>
    match splitSoDot rest with
    | r :: rs => (c :: r) :: rs
    | [] => [[c]]

/-- `ver_str.split('.')`: split a character list on `.`. -/
def splitDot : List Char → List (List Char)
  | [] => [[]]
  | '.' :: rest => [] :: splitDot rest
  | c :: rest =>
    match splitDot rest with
    | r :: rs => (c :: r) :: rs
    | [] => [[c]]

/-- Python `p.isdigit()` (ASCII digits): nonempty and all digits. -/
def isDigitStr (p : List Char) : Bool :=
  !p.isEmpty && p.all (·.isDigit)

/-- Python `int(p)` for a digit string. -/
def digitsToNat (p : List Char) : Nat :=
  p.foldl (fun a c => a * 10 + (c.toNat - '0'.toNat)) 0

/-- `version_key(path)` from `fix_nvrtc.py`: split the path on `.so.`; if a
separator occurred, parse the digit-only dot-components of the last piece
into a list of integers; otherwise return `[0]`.  (The `try/except` in the
source is dead: the guarded comprehension cannot raise.) -/
def version_key (path : List Char) : List Nat :=
  let parts := splitSoDot path
  if 1 < parts.length then
    (splitDot (parts.getLastD [])).filterMap fun p =>
      if isDigitStr p then some (digitsToNat p) else none
  else [0]

/-- Python's lexicographic comparison of two integer lists (`<`), as used by
`list.sort(key=version_key)`. -/
def lexLt : List Nat → List Nat → Bool
  | [], [] => false
  | [], _ :: _ => true
  | _ :: _, [] => false
  | a :: as, b :: bs => if a < b then true else if a = b then lexLt as bs else false

/-- The claim's reading of the sort key: candidates without a parseable
version sort as `[0]`; otherwise the parsed integer list.  Stated from the
claim's words, to be compared with the source's `version_key` (which maps a
path that has a `.so.` separator but no parseable numeric part to `[]`). -/
def versionKeySpec (path : List Char) : List Nat :=
  if version_key path = [] then [0] else version_key path

/-- `find_nvrtc_lib` from `fix_nvrtc.py`, as a function of the two `glob`
results it branches on: `None` when no site-packages directory or no
candidate is found; otherwise `candidates.sort(key=version_key,
reverse=True); return candidates[0]`.  Python's sort is stable, also with
`reverse=True`, so `candidates[0]` is the first candidate (in glob order)
whose key is maximal; the fold below computes exactly that element, replacing
the current best only on a strictly greater key. -/
def find_nvrtc_lib (sitePackages candidates : List (List Char)) :
    Option (List Char) :=
  if sitePackages.isEmpty then none
  else
    match candidates with
    | [] => none
    | c :: cs =>
      some (cs.foldl
        (fun best x => if lexLt (version_key best) (version_key x) then x else best) c)

/-- The state of the destination path `main` inspects before creating the
symlink: absent, a regular (non-symlink) file, a live symlink to `t`
(`os.path.exists` true, `os.path.islink` true), or a broken symlink to `t`
(`os.path.exists` false — `exists` follows links — but the path is still
occupied, so `os.symlink` raises). -/
inductive DestState where
  | absent : DestState
  | regular : DestState
  | liveLink : List Char → DestState
  | brokenLink : List Char → DestState
deriving DecidableEq, Repr

/-- Observable outcome of `main`'s symlink-repair step: whether `os.remove`
ran, whether `os.symlink` completed, and the exit status (`none` means the
script fell through to its success message, i.e. exit 0). -/
structure FixOutcome where
  removed : Bool
  linked : Bool
  exitCode : Option Nat
deriving DecidableEq, Repr

/-- The symlink-repair step of `main` in `fix_nvrtc.py` (lines 68–92), as a
function of the found source library, the destination path's state, and
whether `os.symlink` succeeds when attempted on a free path (`symlinkOk`
models the `except OSError` branch).  A broken symlink at the destination is
not `exists()` but still occupies the path, so the `os.symlink` call raises
and the script exits 1. -/
def fixSymlinkMain (sourceLib : List Char) (dest : DestState)
    (symlinkOk : Bool) : FixOutcome :=
  match dest with
  | DestState.regular => ⟨false, false, some 1⟩
  | DestState.liveLink t =>
    if t = sourceLib then ⟨false, false, some 0⟩
    else if symlinkOk then ⟨true, true, none⟩
    else ⟨true, false, some 1⟩
  | DestState.brokenLink _ => ⟨false, false, some 1⟩
  | DestState.absent =>
    if symlinkOk then ⟨false, true, none⟩ else ⟨false, false, some 1⟩

end FixNvrtc

namespace Offload

theorem onTier_unique {r : Registry} {i : Nat} {t t' : Tier}
    (h : onTier r i t = true) (h' : onTier r i t' = true) : t = t' := by
  unfold onTier at h h'
  cases hc : r.comps[i]? with
  | none => rw [hc] at h; cases h
  | some c =>
    rw [hc] at h h'
    simp only [decide_eq_true_eq] at h h'
    rw [← h, ← h']

theorem lt_length_of_onTier {r : Registry} {i : Nat} {t : Tier}
    (h : onTier r i t = true) : i < r.comps.length := by
  unfold onTier at h
  cases hc : r.comps[i]? with
  | none => rw [hc] at h; cases h
  | some c => exact (List.getElem?_eq_some.mp hc).1

theorem mem_insertByKey {key : Nat → Nat} {x y : Nat} :
    ∀ {l : List Nat}, y ∈ insertByKey key x l ↔ y = x ∨ y ∈ l := by
  intro l
  induction l with
  | nil => simp [insertByKey]
  | cons z zs ih =>
    by_cases h : key x ≤ key z
    · simp [insertByKey, h]
    · simp only [insertByKey, if_neg h, List.mem_cons, ih]
      tauto

theorem mem_sortByKey {key : Nat → Nat} {y : Nat} :
    ∀ {l : List Nat}, y ∈ sortByKey key l ↔ y ∈ l := by
  intro l
  induction l with
  | nil => simp [sortByKey]
  | cons z zs ih =>
    simp only [sortByKey, mem_insertByKey, ih, List.mem_cons]

theorem pairwise_insertByKey {key : Nat → Nat} {x : Nat} :
    ∀ {l : List Nat}, l.Pairwise (fun a b => key a ≤ key b) →
      (insertByKey key x l).Pairwise (fun a b => key a ≤ key b) := by
  intro l
  induction l with
  | nil => intro _; simp [insertByKey]
  | cons z zs ih =>
    intro h
    rw [List.pairwise_cons] at h
    by_cases hxz : key x ≤ key z
    · rw [insertByKey, if_pos hxz, List.pairwise_cons]
      refine ⟨?_, List.pairwise_cons.mpr h⟩
      intro y hy
      rcases List.mem_cons.mp hy with rfl | hy
      · exact hxz
      · exact le_trans hxz (h.1 y hy)
    · rw [insertByKey, if_neg hxz, List.pairwise_cons]
      refine ⟨?_, ih h.2⟩
      intro y hy
      rcases mem_insertByKey.mp hy with rfl | hy
      · exact le_of_not_le hxz
      · exact h.1 y hy

theorem pairwise_sortByKey (key : Nat → Nat) :
    ∀ (l : List Nat), (sortByKey key l).Pairwise (fun a b => key a ≤ key b) := by
  intro l
  induction l with
  | nil => simp [sortByKey]
  | cons z zs ih => exact pairwise_insertByKey ih

theorem mem_groupPeers {cfg : SchedConfig} {r : Registry} {cid : Nat}
    {target : Tier} {j : Nat} :
    j ∈ groupPeers cfg r cid target ↔
      j < r.comps.length ∧ j ≠ cid ∧ sharesGroup cfg cid j = true ∧
        onTier r j target = true := by
  unfold groupPeers
  rw [List.mem_filter, List.mem_range]
  simp only [Bool.and_eq_true, decide_eq_true_eq, ne_eq]
  tauto

theorem mem_evictionOrder {cfg : SchedConfig} {r : Registry} {cid : Nat}
    {target : Tier} {j : Nat} :
    j ∈ evictionOrder cfg r cid target ↔
      j < r.comps.length ∧ j ≠ cid ∧ sharesGroup cfg cid j = true ∧
        onTier r j target = true := by
  unfold evictionOrder
  rw [mem_sortByKey, mem_groupPeers]

theorem sharesGroup_of_mem {cfg : SchedConfig} {i j : Nat} {g : List Nat}
    (hg : g ∈ cfg.groups) (hi : i ∈ g) (hj : j ∈ g) :
    sharesGroup cfg i j = true := by
  unfold sharesGroup
  rw [List.any_eq_true]
  refine ⟨g, hg, ?_⟩
  rw [Bool.and_eq_true]
  exact ⟨List.elem_iff.mpr hi, List.elem_iff.mpr hj⟩

end Offload

namespace Offload

/-- C5: when `ensureResident` must evict several Exclusivity-Group peers from
the target tier, the evictions are issued in ascending last-used order
(least-recently-used first); in the spec's concrete scenario — member A
(id 1) last used at sequence 1 and member B (id 0) at sequence 3, both on the
Accelerator — a residency request for member C (id 2) evicts A before B. -/
theorem evictionOrder_lru (cfg : SchedConfig) (r : Registry) (cid : Nat)
    (target : Tier) :
    (evictionOrder cfg r cid target).Pairwise
      (fun a b => lastUsedOf r a ≤ lastUsedOf r b) ∧
      evictionOrder lruExCfg lruExReg 2 Tier.accel = [1, 0] :=
  ⟨pairwise_sortByKey (lastUsedOf r) (groupPeers cfg r cid target), by decide⟩

theorem move_ok_inv {cfg : SchedConfig} {devOk : Bool} {r r' : Registry}
    {cid : Nat} {fromT toT : Tier}
    (h : move cfg devOk r cid fromT toT = Except.ok r') :
    ∃ c, r.comps[cid]? = some c ∧ c.tier = fromT ∧
      r'.comps = r.comps.set cid { c with tier := toT } ∧
      r'.usedHost = adjustUsed fromT toT Tier.host c.footprint r.usedHost ∧
      r'.usedAccel = adjustUsed fromT toT Tier.accel c.footprint r.usedAccel ∧
      r'.clock = r.clock ∧ devOk = true ∧ wouldFit cfg r toT cid = true := by
  unfold move at h
  split at h
  · exact absurd h (by simp)
  · rename_i c hc
    split at h
    · rename_i ht
      split at h
      · rename_i hd
        rw [Bool.and_eq_true] at hd
        injection h with h
        exact ⟨c, hc, ht, by rw [← h], by rw [← h], by rw [← h], by rw [← h],
          hd.1, hd.2⟩
      · exact absurd h (by simp)
    · exact absurd h (by simp)

theorem move_ok_getElem_ne {cfg : SchedConfig} {devOk : Bool} {r r' : Registry}
    {cid : Nat} {fromT toT : Tier} {j : Nat}
    (h : move cfg devOk r cid fromT toT = Except.ok r') (hj : j ≠ cid) :
    r'.comps[j]? = r.comps[j]? := by
  obtain ⟨c, _, _, hcomps, _⟩ := move_ok_inv h
  rw [hcomps]
  exact List.getElem?_set_ne (Ne.symm hj)

theorem move_ok_getElem_self {cfg : SchedConfig} {devOk : Bool}
    {r r' : Registry} {cid : Nat} {fromT toT : Tier} {c : Component}
    (h : move cfg devOk r cid fromT toT = Except.ok r')
    (hc : r.comps[cid]? = some c) :
    r'.comps[cid]? = some { c with tier := toT } := by
  obtain ⟨c', hc', _, hcomps, _⟩ := move_ok_inv h
  rw [hc] at hc'
  injection hc' with hc'
  rw [hcomps, ← hc']
  exact List.getElem?_set_self (List.getElem?_eq_some.mp hc).1

theorem move_ok_length {cfg : SchedConfig} {devOk : Bool} {r r' : Registry}
    {cid : Nat} {fromT toT : Tier}
    (h : move cfg devOk r cid fromT toT = Except.ok r') :
    r'.comps.length = r.comps.length := by
  obtain ⟨c, _, _, hcomps, _⟩ := move_ok_inv h
  rw [hcomps, List.length_set]

theorem evictAll_ok_getElem_not_mem {cfg : SchedConfig} {devOk : Bool}
    {target : Tier} :
    ∀ {ids : List Nat} {r r' : Registry} {x : Nat}, x ∉ ids →
      evictAll cfg devOk r target ids = Except.ok r' →
      r'.comps[x]? = r.comps[x]? := by
  intro ids
  induction ids with
  | nil =>
    intro r r' x _ h
    unfold evictAll at h
    injection h with h
    rw [h]
  | cons j js ih =>
    intro r r' x hx h
    unfold evictAll at h
    split at h
    · rename_i r1 heq
      have hxj : x ≠ j := fun hxj => hx (hxj ▸ List.mem_cons_self j js)
      have hxs : x ∉ js := fun hxs => hx (List.mem_cons_of_mem j hxs)
      rw [ih hxs h]
      exact move_ok_getElem_ne heq hxj
    · exact absurd h (by simp)

theorem evictAll_ok_host {cfg : SchedConfig} {devOk : Bool} {target : Tier} :
    ∀ {ids : List Nat} {r r' : Registry},
      evictAll cfg devOk r target ids = Except.ok r' →
      ∀ x ∈ ids, onTier r' x Tier.host = true := by
  intro ids
  induction ids with
  | nil => intro r r' _ x hx; cases hx
  | cons j js ih =>
    intro r r' h x hx
    unfold evictAll at h
    split at h
    · rename_i r1 heq
      rcases List.mem_cons.mp hx with rfl | hxs
      · by_cases hjs : x ∈ js
        · exact ih h x hjs
        · obtain ⟨c, hc, _⟩ := move_ok_inv heq
          have h1 : r1.comps[x]? = some { c with tier := Tier.host } :=
            move_ok_getElem_self heq hc
          have h2 : r'.comps[x]? = r1.comps[x]? :=
            evictAll_ok_getElem_not_mem hjs h
          unfold onTier
          rw [h2, h1]
          simp
      · exact ih h x hxs
    · exact absurd h (by simp)

end Offload

namespace Offload

theorem evictAll_error_eq {cfg : SchedConfig} {devOk : Bool} {target : Tier} :
    ∀ {ids : List Nat} {r : Registry} {e : SchedError},
      evictAll cfg devOk r target ids = Except.error e →
      e = SchedError.CapacityExceeded := by
  intro ids
  induction ids with
  | nil => intro r e h; exact absurd h (by simp [evictAll])
  | cons j js ih =>
    intro r e h
    unfold evictAll at h
    split at h
    · exact ih h
    · injection h with h
      rw [← h]

theorem ensureResident_ok_inv {cfg : SchedConfig} {devOk : Bool}
    {r r' : Registry} {cid : Nat} {target : Tier}
    (h : ensureResident cfg devOk r cid target = Except.ok r') :
    (∃ c, r.comps[cid]? = some c ∧ c.tier = target ∧ r' = r) ∨
    (∃ c r1 r2, r.comps[cid]? = some c ∧ c.tier ≠ target ∧
      evictAll cfg devOk r target (evictionOrder cfg r cid target) =
        Except.ok r1 ∧
      wouldFit cfg r1 target cid = true ∧
      move cfg devOk r1 cid c.tier target = Except.ok r2 ∧
      r' = stamp r2 cid) := by
  unfold ensureResident at h
  split at h
  · exact absurd h (by simp)
  · rename_i c hc
    split at h
    · rename_i ht
      injection h with h
      exact Or.inl ⟨c, hc, ht, h.symm⟩
    · rename_i ht
      split at h
      · exact absurd h (by simp)
      · rename_i r1 heva
        split at h
        · rename_i hfit
          split at h
          · rename_i r2 hmv
            injection h with h
            exact Or.inr ⟨c, r1, r2, hc, ht, heva, hfit, hmv, h.symm⟩
          · exact absurd h (by simp)
        · exact absurd h (by simp)

theorem not_mem_evictionOrder_self {cfg : SchedConfig} {r : Registry}
    {cid : Nat} {target : Tier} : cid ∉ evictionOrder cfg r cid target :=
  fun hmem => (mem_evictionOrder.mp hmem).2.1 rfl

/-- C2: a component whose footprint alone exceeds the Accelerator tier's
capacity can never be made resident there: whatever other components get
evicted first, `ensureResident(component, Accelerator)` fails with
`CapacityExceeded`. -/
theorem ensureResident_capacity_exceeded (cfg : SchedConfig) (devOk : Bool)
    (r : Registry) (cid : Nat) (c : Component)
    (hc : r.comps[cid]? = some c) (ht : c.tier ≠ Tier.accel)
    (hbig : cfg.accelCap < c.footprint) :
    ensureResident cfg devOk r cid Tier.accel =
      Except.error SchedError.CapacityExceeded := by
  unfold ensureResident
  rw [hc]
  simp only [if_neg ht]
  cases heva : evictAll cfg devOk r Tier.accel
      (evictionOrder cfg r cid Tier.accel) with
  | error e => simp only [evictAll_error_eq heva]
  | ok r1 =>
    have hc1 : r1.comps[cid]? = some c := by
      rw [evictAll_ok_getElem_not_mem not_mem_evictionOrder_self heva, hc]
    have hfit : wouldFit cfg r1 Tier.accel cid = false := by
      unfold wouldFit
      rw [hc1]
      simp only [decide_eq_false_iff_not, not_le, SchedConfig.capacity]
      omega
    simp only [hfit, Bool.false_eq_true, if_false]

/-- C2 witness: a component of footprint 20 on the Host with Accelerator
capacity 10 is rejected with `CapacityExceeded`. -/
theorem ensureResident_capacity_exceeded_witness :
    (⟨[⟨20, Tier.host, 0, [1]⟩], 20, 0, 1⟩ : Registry).comps[0]? =
        some ⟨20, Tier.host, 0, [1]⟩ ∧
      (⟨20, Tier.host, 0, [1]⟩ : Component).tier ≠ Tier.accel ∧
      (⟨100, 10, [[0]]⟩ : SchedConfig).accelCap < 20 ∧
      ensureResident ⟨100, 10, [[0]]⟩ true ⟨[⟨20, Tier.host, 0, [1]⟩], 20, 0, 1⟩
          0 Tier.accel = Except.error SchedError.CapacityExceeded :=
  ⟨by decide, by decide, by decide,
    ensureResident_capacity_exceeded ⟨100, 10, [[0]]⟩ true
      ⟨[⟨20, Tier.host, 0, [1]⟩], 20, 0, 1⟩ 0 ⟨20, Tier.host, 0, [1]⟩
      (by decide) (by decide) (by decide)⟩

/-- C3: `move` is atomic — if a transfer fails (for instance with
`AllocationFailure`), the system keeps the prior Registry, in which the
component is still in `fromTier` with its weight data unchanged and fully
usable; it is never left partially moved. -/
theorem move_atomic (cfg : SchedConfig) (devOk : Bool) (r : Registry)
    (cid : Nat) (c : Component) (fromT toT : Tier) (e : SchedError)
    (hc : r.comps[cid]? = some c) (ht : c.tier = fromT)
    (herr : (moveRun cfg devOk r cid fromT toT).2 = some e) :
    ((moveRun cfg devOk r cid fromT toT).1).comps[cid]? = some c ∧
      c.tier = fromT := by
  unfold moveRun at herr ⊢
  cases hm : move cfg devOk r cid fromT toT with
  | ok r1 => rw [hm] at herr; exact absurd herr (by simp)
  | error e1 => exact ⟨hc, ht⟩

/-- C3 witness: with the device reporting failure, the move attempt errors
and the component record is untouched. -/
theorem move_atomic_witness :
    (⟨[⟨5, Tier.host, 0, [1, 2, 3]⟩], 5, 0, 0⟩ : Registry).comps[0]? =
        some ⟨5, Tier.host, 0, [1, 2, 3]⟩ ∧
      (⟨5, Tier.host, 0, [1, 2, 3]⟩ : Component).tier = Tier.host ∧
      (moveRun ⟨100, 10, []⟩ false ⟨[⟨5, Tier.host, 0, [1, 2, 3]⟩], 5, 0, 0⟩ 0
          Tier.host Tier.accel).2 = some SchedError.AllocationFailure ∧
      ((moveRun ⟨100, 10, []⟩ false ⟨[⟨5, Tier.host, 0, [1, 2, 3]⟩], 5, 0, 0⟩ 0
          Tier.host Tier.accel).1).comps[0]? =
        some ⟨5, Tier.host, 0, [1, 2, 3]⟩ :=
  ⟨by decide, by decide, by decide,
    (move_atomic ⟨100, 10, []⟩ false ⟨[⟨5, Tier.host, 0, [1, 2, 3]⟩], 5, 0, 0⟩
      0 ⟨5, Tier.host, 0, [1, 2, 3]⟩ Tier.host Tier.accel
      SchedError.AllocationFailure (by decide) (by decide) (by decide)).1⟩

/-- C4: after a successful `move`, the component's current tier is the
requested destination and its weight bytes are identical; moving a component
Host → Accelerator and then back Accelerator → Host reproduces the original
component record — in particular the original weight buffer — bit for bit. -/
theorem move_success_roundtrip (cfg : SchedConfig) (dm da db : Bool)
    (r r' ra rb : Registry) (cid : Nat) (c : Component) (fromT toT : Tier)
    (hc : r.comps[cid]? = some c)
    (hm : move cfg dm r cid fromT toT = Except.ok r')
    (ha : move cfg da r cid Tier.host Tier.accel = Except.ok ra)
    (hb : move cfg db ra cid Tier.accel Tier.host = Except.ok rb) :
    r'.comps[cid]? = some { c with tier := toT } ∧
      rb.comps[cid]? = some c := by
  obtain ⟨fp, ct, lu, w⟩ := c
  refine ⟨move_ok_getElem_self hm hc, ?_⟩
  have h1 := move_ok_getElem_self ha hc
  have h2 := move_ok_getElem_self hb h1
  obtain ⟨c', hc', hthost, _⟩ := move_ok_inv ha
  rw [hc] at hc'
  injection hc' with hc'
  rw [← hc'] at hthost
  have hct : ct = Tier.host := hthost
  subst hct
  exact h2

/-- C4 witness: a concrete Host → Accelerator → Host round trip restoring
the original record. -/
theorem move_success_roundtrip_witness :
    (⟨[⟨5, Tier.host, 0, [1, 2, 3]⟩], 5, 0, 0⟩ : Registry).comps[0]? =
        some ⟨5, Tier.host, 0, [1, 2, 3]⟩ ∧
      move ⟨100, 10, []⟩ true ⟨[⟨5, Tier.host, 0, [1, 2, 3]⟩], 5, 0, 0⟩ 0
          Tier.host Tier.accel =
        Except.ok ⟨[⟨5, Tier.accel, 0, [1, 2, 3]⟩], 0, 5, 0⟩ ∧
      move ⟨100, 10, []⟩ true ⟨[⟨5, Tier.accel, 0, [1, 2, 3]⟩], 0, 5, 0⟩ 0
          Tier.accel Tier.host =
        Except.ok ⟨[⟨5, Tier.host, 0, [1, 2, 3]⟩], 5, 0, 0⟩ ∧
      (⟨[⟨5, Tier.accel, 0, [1, 2, 3]⟩], 0, 5, 0⟩ : Registry).comps[0]? =
          some ⟨5, Tier.accel, 0, [1, 2, 3]⟩ ∧
        (⟨[⟨5, Tier.host, 0, [1, 2, 3]⟩], 5, 0, 0⟩ : Registry).comps[0]? =
          some ⟨5, Tier.host, 0, [1, 2, 3]⟩ :=
  ⟨by decide, by rfl, by rfl,
    move_success_roundtrip ⟨100, 10, []⟩ true true true
      ⟨[⟨5, Tier.host, 0, [1, 2, 3]⟩], 5, 0, 0⟩
      ⟨[⟨5, Tier.accel, 0, [1, 2, 3]⟩], 0, 5, 0⟩
      ⟨[⟨5, Tier.accel, 0, [1, 2, 3]⟩], 0, 5, 0⟩
      ⟨[⟨5, Tier.host, 0, [1, 2, 3]⟩], 5, 0, 0⟩ 0
      ⟨5, Tier.host, 0, [1, 2, 3]⟩ Tier.host Tier.accel
      (by decide) (by rfl) (by rfl) (by rfl)⟩

end Offload

namespace Offload

theorem onTier_stamp (r : Registry) (cid j : Nat) (t : Tier) :
    onTier (stamp r cid) j t = onTier r j t := by
  unfold stamp
  split
  · rename_i c hc
    unfold onTier
    by_cases hj : j = cid
    · subst hj
      rw [List.getElem?_set_self (List.getElem?_eq_some.mp hc).1, hc]
    · rw [List.getElem?_set_ne (Ne.symm hj)]
  · rfl

theorem groupExclusive_ensureResident {cfg : SchedConfig} {devOk : Bool}
    {r r' : Registry} {cid : Nat} {target : Tier}
    (hex : GroupExclusive cfg r)
    (h : ensureResident cfg devOk r cid target = Except.ok r') :
    GroupExclusive cfg r' := by
  rcases ensureResident_ok_inv h with ⟨c, hc, ht, rfl⟩ |
    ⟨c, r1, r2, hc, ht, heva, hfit, hmv, rfl⟩
  · exact hex
  · intro g hg i hi j hj hion hjon
    rw [onTier_stamp] at hion hjon
    have pull : ∀ x, x ≠ cid → onTier r2 x Tier.accel = true →
        onTier r x Tier.accel = true ∧
          x ∉ evictionOrder cfg r cid target := by
      intro x hx hon
      have h1 : onTier r1 x Tier.accel = true := by
        unfold onTier at hon ⊢
        rw [← move_ok_getElem_ne hmv hx]
        exact hon
      have hnotmem : x ∉ evictionOrder cfg r cid target := by
        intro hmem
        have hhost : onTier r1 x Tier.host = true := evictAll_ok_host heva x hmem
        exact Tier.noConfusion (onTier_unique h1 hhost)
      have h0 : onTier r x Tier.accel = true := by
        unfold onTier at h1 ⊢
        rw [← evictAll_ok_getElem_not_mem hnotmem heva]
        exact h1
      exact ⟨h0, hnotmem⟩
    have hr1c : r1.comps[cid]? = some c := by
      rw [evictAll_ok_getElem_not_mem not_mem_evictionOrder_self heva]
      exact hc
    have hr2c : r2.comps[cid]? = some { c with tier := target } :=
      move_ok_getElem_self hmv hr1c
    have htar_of : onTier r2 cid Tier.accel = true → target = Tier.accel := by
      intro hon
      unfold onTier at hon
      rw [hr2c] at hon
      exact of_decide_eq_true hon
    by_cases hic : i = cid <;> by_cases hjc : j = cid
    · rw [hic, hjc]
    · subst hic
      obtain ⟨hj0, hjne⟩ := pull j hjc hjon
      have htar : target = Tier.accel := htar_of hion
      exact absurd (mem_evictionOrder.mpr ⟨lt_length_of_onTier hj0, hjc,
        sharesGroup_of_mem hg hi hj, by rw [htar]; exact hj0⟩) hjne
    · subst hjc
      obtain ⟨hi0, hine⟩ := pull i hic hion
      have htar : target = Tier.accel := htar_of hjon
      exact absurd (mem_evictionOrder.mpr ⟨lt_length_of_onTier hi0, hic,
        sharesGroup_of_mem hg hj hi, by rw [htar]; exact hi0⟩) hine
    · obtain ⟨hi0, _⟩ := pull i hic hion
      obtain ⟨hj0, _⟩ := pull j hjc hjon
      exact hex g hg i hi j hj hi0 hj0

theorem groupExclusive_applyCall {cfg : SchedConfig} {r : Registry}
    (k : Call) (hex : GroupExclusive cfg r) :
    GroupExclusive cfg (applyCall cfg r k) := by
  unfold applyCall
  cases h : ensureResident cfg k.devOk r k.cid k.target with
  | ok r' => exact groupExclusive_ensureResident hex h
  | error e => exact hex

/-- C1: for every sequence of `ensureResident` calls and every configured
Exclusivity Group, at every quiescent point (the Registry state between
calls) at most one member of the group is resident in the Accelerator tier:
the invariant `GroupExclusive` is preserved by every call sequence, so no
sequence ever makes two members of one group simultaneously reported
resident on the Accelerator. -/
theorem runCalls_group_exclusive (cfg : SchedConfig) (r : Registry)
    (calls : List Call) (hex : GroupExclusive cfg r) :
    GroupExclusive cfg (runCalls cfg r calls) := by
  induction calls generalizing r with
  | nil => exact hex
  | cons k ks ih => exact ih (applyCall cfg r k) (groupExclusive_applyCall k hex)

/-- C1 witness: the spec's ping-pong scenario — two components of footprint
7 sharing a group, Accelerator capacity 10; requesting each in turn keeps the
group exclusive throughout. -/
theorem runCalls_group_exclusive_witness :
    GroupExclusive ⟨1000, 10, [[0, 1]]⟩
        ⟨[⟨7, Tier.host, 0, [1]⟩, ⟨7, Tier.host, 0, [2]⟩], 14, 0, 1⟩ ∧
      GroupExclusive ⟨1000, 10, [[0, 1]]⟩
        (runCalls ⟨1000, 10, [[0, 1]]⟩
          ⟨[⟨7, Tier.host, 0, [1]⟩, ⟨7, Tier.host, 0, [2]⟩], 14, 0, 1⟩
          [⟨0, Tier.accel, true⟩, ⟨1, Tier.accel, true⟩, ⟨0, Tier.accel, true⟩]) :=
  ⟨by decide,
    runCalls_group_exclusive ⟨1000, 10, [[0, 1]]⟩
      ⟨[⟨7, Tier.host, 0, [1]⟩, ⟨7, Tier.host, 0, [2]⟩], 14, 0, 1⟩
      [⟨0, Tier.accel, true⟩, ⟨1, Tier.accel, true⟩, ⟨0, Tier.accel, true⟩]
      (by decide)⟩

end Offload

namespace Offload

theorem tierLoad_set (t : Tier) :
    ∀ (l : List Component) (i : Nat) (c c' : Component), l[i]? = some c →
      tierLoad t (l.set i c') + (if c.tier = t then c.footprint else 0) =
        tierLoad t l + (if c'.tier = t then c'.footprint else 0) := by
  intro l
  induction l with
  | nil => intro i c c' h; simp at h
  | cons a as ih =>
    intro i c c' h
    cases i with
    | zero =>
      rw [List.getElem?_cons_zero] at h
      injection h with h
      subst h
      simp only [List.set_cons_zero, tierLoad]
      omega
    | succ n =>
      rw [List.getElem?_cons_succ] at h
      simp only [List.set_cons_succ, tierLoad]
      have := ih n c c' h
      omega

theorem le_tierLoad (t : Tier) :
    ∀ (l : List Component) (i : Nat) (c : Component), l[i]? = some c →
      c.tier = t → c.footprint ≤ tierLoad t l := by
  intro l
  induction l with
  | nil => intro i c h _; simp at h
  | cons a as ih =>
    intro i c h hct
    cases i with
    | zero =>
      rw [List.getElem?_cons_zero] at h
      injection h with h
      subst h
      simp only [tierLoad, if_pos hct]
      omega
    | succ n =>
      rw [List.getElem?_cons_succ] at h
      have := ih n c h hct
      simp only [tierLoad]
      omega

theorem usedConsistent_move {cfg : SchedConfig} {devOk : Bool}
    {r r' : Registry} {cid : Nat} {fromT toT : Tier}
    (hu : UsedConsistent r) (h : move cfg devOk r cid fromT toT = Except.ok r') :
    UsedConsistent r' := by
  obtain ⟨c, hc, ht, hcomps, hh, ha, hck, hdev, hfit⟩ := move_ok_inv h
  obtain ⟨huh, hua⟩ := hu
  have hlef : c.footprint ≤ tierLoad fromT r.comps :=
    le_tierLoad fromT r.comps cid c hc ht
  have key : ∀ t, adjustUsed fromT toT t c.footprint (tierLoad t r.comps) =
      tierLoad t (r.comps.set cid { c with tier := toT }) := by
    intro t
    have h1 := tierLoad_set t r.comps cid c { c with tier := toT } hc
    dsimp only at h1
    rw [ht] at h1
    rcases t with _ | _ <;> rcases fromT with _ | _ <;> rcases toT with _ | _ <;>
      simp_all [adjustUsed] <;> omega
  constructor
  · rw [hh, huh, hcomps]
    exact key Tier.host
  · rw [ha, hua, hcomps]
    exact key Tier.accel

theorem usedConsistent_stamp {r : Registry} (cid : Nat)
    (hu : UsedConsistent r) : UsedConsistent (stamp r cid) := by
  unfold stamp
  split
  · rename_i c hc
    obtain ⟨huh, hua⟩ := hu
    have h1 := tierLoad_set Tier.host r.comps cid c { c with lastUsed := r.clock } hc
    have h2 := tierLoad_set Tier.accel r.comps cid c { c with lastUsed := r.clock } hc
    dsimp only at h1 h2
    constructor
    · dsimp only
      rw [huh]
      omega
    · dsimp only
      rw [hua]
      omega
  · exact hu

theorem usedConsistent_evictAll {cfg : SchedConfig} {devOk : Bool}
    {target : Tier} :
    ∀ {ids : List Nat} {r r' : Registry}, UsedConsistent r →
      evictAll cfg devOk r target ids = Except.ok r' → UsedConsistent r' := by
  intro ids
  induction ids with
  | nil =>
    intro r r' hu h
    injection h with h
    rw [← h]
    exact hu
  | cons j js ih =>
    intro r r' hu h
    unfold evictAll at h
    split at h
    · rename_i r1 heq
      exact ih (usedConsistent_move hu heq) h
    · exact absurd h (by simp)

theorem usedConsistent_ensureResident {cfg : SchedConfig} {devOk : Bool}
    {r r' : Registry} {cid : Nat} {target : Tier}
    (hu : UsedConsistent r)
    (h : ensureResident cfg devOk r cid target = Except.ok r') :
    UsedConsistent r' := by
  rcases ensureResident_ok_inv h with ⟨c, hc, ht, rfl⟩ |
    ⟨c, r1, r2, hc, ht, heva, hfit, hmv, rfl⟩
  · exact hu
  · exact usedConsistent_stamp cid
      (usedConsistent_move (usedConsistent_evictAll hu heva) hmv)

theorem usedConsistent_runCalls (cfg : SchedConfig) (calls : List Call)
    (r : Registry) (hu : UsedConsistent r) :
    UsedConsistent (runCalls cfg r calls) := by
  induction calls generalizing r with
  | nil => exact hu
  | cons k ks ih =>
    refine ih (applyCall cfg r k) ?_
    unfold applyCall
    cases h : ensureResident cfg k.devOk r k.cid k.target with
    | ok r' => exact usedConsistent_ensureResident hu h
    | error e => exact hu

/-- C6: for every tier and every registered component, `wouldFit` answers
exactly "used bytes plus footprint within capacity", where the used bytes of
a tier are the sum of its residents' footprints — and since the Registry's
tracked bookkeeping stays consistent with that sum across every transfer,
the equivalence holds in every state reachable by `ensureResident` call
sequences. -/
theorem wouldFit_iff_load (cfg : SchedConfig) (r : Registry)
    (calls : List Call) (t : Tier) (cid : Nat) (c : Component)
    (hu : UsedConsistent r)
    (hc : (runCalls cfg r calls).comps[cid]? = some c) :
    wouldFit cfg (runCalls cfg r calls) t cid = true ↔
      tierLoad t (runCalls cfg r calls).comps + c.footprint ≤
        cfg.capacity t := by
  have hu' := usedConsistent_runCalls cfg calls r hu
  simp only [wouldFit, hc]
  rw [decide_eq_true_eq]
  cases t with
  | host => dsimp only [Registry.used]; rw [hu'.1]
  | accel => dsimp only [Registry.used]; rw [hu'.2]

/-- C6 witness: after one call that moves component 0 to the Accelerator,
`wouldFit` for component 1 on the Accelerator agrees with the residents'
footprint sum. -/
theorem wouldFit_iff_load_witness :
    UsedConsistent ⟨[⟨7, Tier.host, 0, [1]⟩, ⟨7, Tier.host, 0, [2]⟩], 14, 0, 1⟩ ∧
      (runCalls ⟨1000, 10, [[0, 1]]⟩
          ⟨[⟨7, Tier.host, 0, [1]⟩, ⟨7, Tier.host, 0, [2]⟩], 14, 0, 1⟩
          [⟨0, Tier.accel, true⟩]).comps[1]? = some ⟨7, Tier.host, 0, [2]⟩ ∧
      (wouldFit ⟨1000, 10, [[0, 1]]⟩
          (runCalls ⟨1000, 10, [[0, 1]]⟩
            ⟨[⟨7, Tier.host, 0, [1]⟩, ⟨7, Tier.host, 0, [2]⟩], 14, 0, 1⟩
            [⟨0, Tier.accel, true⟩]) Tier.accel 1 = true ↔
        tierLoad Tier.accel
            (runCalls ⟨1000, 10, [[0, 1]]⟩
              ⟨[⟨7, Tier.host, 0, [1]⟩, ⟨7, Tier.host, 0, [2]⟩], 14, 0, 1⟩
              [⟨0, Tier.accel, true⟩]).comps + 7 ≤ 10) :=
  ⟨by decide, by decide,
    wouldFit_iff_load ⟨1000, 10, [[0, 1]]⟩
      ⟨[⟨7, Tier.host, 0, [1]⟩, ⟨7, Tier.host, 0, [2]⟩], 14, 0, 1⟩
      [⟨0, Tier.accel, true⟩] Tier.accel 1 ⟨7, Tier.host, 0, [2]⟩
      (by decide) (by decide)⟩

end Offload

namespace Offload

theorem splitSizes_sum (n k : Nat) :
    (List.replicate (n % k) (n / k + 1) ++
      List.replicate (k - n % k) (n / k)).sum = n := by
  simp only [List.sum_append, List.sum_replicate, smul_eq_mul]
  rcases Nat.eq_zero_or_pos k with rfl | hk
  · simp
  · have hdm := Nat.div_add_mod n k
    have hmod : n % k < k := Nat.mod_lt n hk
    have h1 : n % k * (n / k + 1) = n % k * (n / k) + n % k := Nat.mul_succ _ _
    have h2 : (k - n % k) * (n / k) = k * (n / k) - n % k * (n / k) :=
      Nat.sub_mul _ _ _
    have hle : n % k * (n / k) ≤ k * (n / k) :=
      Nat.mul_le_mul_right _ (le_of_lt hmod)
    omega

theorem planDecomposition_sum (n m : Nat) : (planDecomposition n m).sum = n := by
  unfold planDecomposition
  exact splitSizes_sum n ((n + m - 1) / m)

theorem planDecomposition_length (n m : Nat) (hm : 0 < m) :
    (planDecomposition n m).length = (n + m - 1) / m := by
  unfold planDecomposition
  simp only [List.length_append, List.length_replicate]
  by_cases hk : (n + m - 1) / m = 0
  · rw [hk]
    have := (Nat.div_eq_zero_iff hm).mp hk
    omega
  · have hmod : n % ((n + m - 1) / m) < (n + m - 1) / m :=
      Nat.mod_lt n (Nat.pos_of_ne_zero hk)
    omega

theorem planDecomposition_le (n m : Nat) (hm : 0 < m) :
    ∀ s ∈ planDecomposition n m, s ≤ m := by
  intro s hs
  unfold planDecomposition at hs
  rw [List.mem_append] at hs
  by_cases hk : (n + m - 1) / m = 0
  · rcases hs with hs | hs <;>
      · rw [List.mem_replicate] at hs
        obtain ⟨-, rfl⟩ := hs
        rw [hk]
        simp only [Nat.div_zero]
        omega
  · have hkpos : 0 < (n + m - 1) / m := Nat.pos_of_ne_zero hk
    have hnm : n ≤ m * ((n + m - 1) / m) := by
      have hdm := Nat.div_add_mod (n + m - 1) m
      have hmod : (n + m - 1) % m < m := Nat.mod_lt _ hm
      omega
    rcases hs with hs | hs
    · rw [List.mem_replicate] at hs
      obtain ⟨hrem, rfl⟩ := hs
      have hdm2 := Nat.div_add_mod n ((n + m - 1) / m)
      have hc : m * ((n + m - 1) / m) = ((n + m - 1) / m) * m := Nat.mul_comm _ _
      have h1 : ((n + m - 1) / m) * (n / ((n + m - 1) / m)) <
          ((n + m - 1) / m) * m := by
        omega
      have h2 : n / ((n + m - 1) / m) < m := Nat.lt_of_mul_lt_mul_left h1
      omega
    · rw [List.mem_replicate] at hs
      obtain ⟨hknz, rfl⟩ := hs
      have h1 : n / ((n + m - 1) / m) * ((n + m - 1) / m) ≤ n :=
        Nat.div_mul_le_self _ _
      have h2 : n / ((n + m - 1) / m) * ((n + m - 1) / m) ≤
          m * ((n + m - 1) / m) := le_trans h1 hnm
      exact Nat.le_of_mul_le_mul_right h2 hkpos

theorem planDecomposition_min (n m : Nat) (hm : 0 < m) (l : List Nat)
    (hsum : l.sum = n) (hbound : ∀ s ∈ l, s ≤ m) :
    (planDecomposition n m).length ≤ l.length := by
  rw [planDecomposition_length n m hm]
  have h1 : n ≤ l.length * m := by
    calc n = l.sum := hsum.symm
    _ ≤ l.length • m := List.sum_le_card_nsmul l m hbound
    _ = l.length * m := by rw [smul_eq_mul]
  rw [Nat.div_le_iff_le_mul_add_pred hm]
  have hc : l.length * m = m * l.length := Nat.mul_comm _ _
  omega

theorem planDecomposition_near_equal (n m : Nat) :
    ∀ a ∈ planDecomposition n m, ∀ b ∈ planDecomposition n m, a ≤ b + 1 := by
  intro a ha b hb
  unfold planDecomposition at ha hb
  rw [List.mem_append] at ha hb
  rcases ha with ha | ha <;> rcases hb with hb | hb <;>
    rw [List.mem_replicate] at ha hb <;> omega

/-- C7: `planDecomposition(fullInputSize, maxSubRegionBytes)` is a pure,
deterministic function of its two arguments producing the smallest number of
equal or near-equal sub-regions that cover the whole input with every
sub-region within the budget; in particular `planDecomposition(100, 30)`
yields at least 4 sub-regions, each at most 30 units. -/
theorem planDecomposition_spec (n m : Nat) (hm : 0 < m) :
    (planDecomposition n m).sum = n ∧
      (∀ s ∈ planDecomposition n m, s ≤ m) ∧
      (∀ l : List Nat, l.sum = n → (∀ s ∈ l, s ≤ m) →
        (planDecomposition n m).length ≤ l.length) ∧
      (∀ a ∈ planDecomposition n m, ∀ b ∈ planDecomposition n m, a ≤ b + 1) ∧
      4 ≤ (planDecomposition 100 30).length ∧
      (∀ s ∈ planDecomposition 100 30, s ≤ 30) :=
  ⟨planDecomposition_sum n m, planDecomposition_le n m hm,
    fun l hs hb => planDecomposition_min n m hm l hs hb,
    planDecomposition_near_equal n m, by decide, by decide⟩

/-- C7 witness: the budget 30 is positive and the plan for a 100-unit input
covers it exactly. -/
theorem planDecomposition_spec_witness :
    0 < 30 ∧ (planDecomposition 100 30).sum = 100 :=
  ⟨by decide, (planDecomposition_spec 100 30 (by decide)).1⟩

theorem op_nil_of_hom {α β : Type} {op : List α → List β}
    (hop : ∀ a b, op (a ++ b) = op a ++ op b) : op [] = [] := by
  have h := hop [] []
  rw [List.nil_append] at h
  have h2 := congrArg List.length h
  rw [List.length_append] at h2
  exact List.eq_nil_of_length_eq_zero (by omega)

theorem applyPlan_hom {α β : Type} (op : List α → List β)
    (hop : ∀ a b, op (a ++ b) = op a ++ op b) :
    ∀ (plan : List Nat) (xs : List α), plan.sum = xs.length →
      applyPlan plan op xs = op xs := by
  intro plan
  induction plan with
  | nil =>
    intro xs hsum
    rw [List.sum_nil] at hsum
    rw [List.eq_nil_of_length_eq_zero hsum.symm]
    simp only [applyPlan, splitByPlan, List.map_nil, List.flatten_nil]
    exact (op_nil_of_hom hop).symm
  | cons s ss ih =>
    intro xs hsum
    rw [List.sum_cons] at hsum
    have hdrop : ss.sum = (xs.drop s).length := by
      rw [List.length_drop]
      omega
    have ih' := ih (xs.drop s) hdrop
    unfold applyPlan at ih' ⊢
    unfold splitByPlan
    rw [List.map_cons, List.flatten_cons, ih', ← hop, List.take_append_drop]

/-- C8: for every plan produced by `planDecomposition` and every operation
that distributes over buffer concatenation (the reference associative
operation), `applyPlan` — which runs the operation once per sub-region in
plan order and merges the partial outputs in order — produces exactly the
single-pass result over the undivided input. -/
theorem applyPlan_equiv_single_pass {α β : Type} (m : Nat) (xs : List α)
    (op : List α → List β)
    (hop : ∀ a b, op (a ++ b) = op a ++ op b) :
    applyPlan (planDecomposition xs.length m) op xs = op xs :=
  applyPlan_hom op hop (planDecomposition xs.length m) xs
    (planDecomposition_sum xs.length m)

/-- C8 witness: tiling a 5-element buffer with budget 2 and mapping a
concrete pixel operation over each tile merges to the single-pass result. -/
theorem applyPlan_equiv_single_pass_witness :
    (∀ a b : List Nat,
        List.map (· + 1) (a ++ b) = List.map (· + 1) a ++ List.map (· + 1) b) ∧
      applyPlan (planDecomposition ([1, 2, 3, 4, 5] : List Nat).length 2)
          (List.map (· + 1)) [1, 2, 3, 4, 5] =
        List.map (· + 1) [1, 2, 3, 4, 5] :=
  ⟨fun a b => List.map_append _ a b,
    applyPlan_equiv_single_pass 2 [1, 2, 3, 4, 5] (List.map (· + 1))
      (fun a b => List.map_append _ a b)⟩

end Offload

namespace FixNvrtc

/-- C9: if the destination path exists and is not a symlink, `main` exits
with status 1 leaving the existing file untouched (never removed or
overwritten), and `os.remove` is reached only when the destination is an
existing (live) symlink pointing at a different target than the found source
library. -/
theorem fixSymlinkMain_safety (src : List Char) (dest : DestState) (ok : Bool) :
    (dest = DestState.regular →
      fixSymlinkMain src dest ok = ⟨false, false, some 1⟩) ∧
      ((fixSymlinkMain src dest ok).removed = true →
        ∃ t, dest = DestState.liveLink t ∧ t ≠ src) := by
  constructor
  · intro h
    subst h
    rfl
  · intro h
    cases dest with
    | absent => cases ok <;> simp [fixSymlinkMain] at h
    | regular => simp [fixSymlinkMain] at h
    | brokenLink t => simp [fixSymlinkMain] at h
    | liveLink t =>
      by_cases ht : t = src
      · simp [fixSymlinkMain, ht] at h
      · exact ⟨t, rfl, ht⟩

/-- C9 witness: a regular file at the destination makes the repair step exit
1 without touching it, and a live symlink at a different target is the case
that reaches `os.remove`. -/
theorem fixSymlinkMain_safety_witness :
    fixSymlinkMain "s".toList DestState.regular true = ⟨false, false, some 1⟩ ∧
      (fixSymlinkMain "s".toList (DestState.liveLink "t".toList) true).removed =
        true ∧
      (∃ t, DestState.liveLink "t".toList = DestState.liveLink t ∧
        t ≠ "s".toList) :=
  ⟨(fixSymlinkMain_safety "s".toList DestState.regular true).1 rfl,
    by decide,
    (fixSymlinkMain_safety "s".toList (DestState.liveLink "t".toList) true).2
      (by decide)⟩

theorem lexLt_irrefl : ∀ l : List Nat, lexLt l l = false := by
  intro l
  induction l with
  | nil => rfl
  | cons a as ih => simp [lexLt, ih]

theorem lexLt_nil_right : ∀ l : List Nat, lexLt l [] = false := by
  intro l
  cases l <;> rfl

theorem lexLt_nil_left : ∀ l : List Nat, lexLt [] l = false ↔ l = [] := by
  intro l
  cases l <;> simp [lexLt]

theorem lexLt_zero_right : ∀ l : List Nat, l ≠ [] → lexLt l [0] = false := by
  intro l h
  cases l with
  | nil => exact absurd rfl h
  | cons a as =>
    simp only [lexLt]
    rw [if_neg (Nat.not_lt_zero a)]
    by_cases ha : a = 0
    · rw [if_pos ha]
      exact lexLt_nil_right as
    · rw [if_neg ha]

theorem lexLt_trans :
    ∀ a b c : List Nat, lexLt a b = true → lexLt b c = true →
      lexLt a c = true := by
  intro a
  induction a with
  | nil =>
    intro b c hab hbc
    cases b with
    | nil => simp [lexLt] at hab
    | cons y ys =>
      cases c with
      | nil => simp [lexLt] at hbc
      | cons z zs => rfl
  | cons x xs ih =>
    intro b c hab hbc
    cases b with
    | nil => simp [lexLt] at hab
    | cons y ys =>
      cases c with
      | nil => simp [lexLt] at hbc
      | cons z zs =>
        simp only [lexLt] at hab hbc ⊢
        by_cases hxy : x < y
        · by_cases hyz : y < z
          · rw [if_pos (lt_trans hxy hyz)]
          · rw [if_neg hyz] at hbc
            by_cases hyz2 : y = z
            · have hxz : x < z := hyz2 ▸ hxy
              rw [if_pos hxz]
            · rw [if_neg hyz2] at hbc
              simp at hbc
        · rw [if_neg hxy] at hab
          by_cases hxy2 : x = y
          · rw [if_pos hxy2] at hab
            subst hxy2
            by_cases hyz : x < z
            · rw [if_pos hyz]
            · rw [if_neg hyz] at hbc ⊢
              by_cases hyz2 : x = z
              · rw [if_pos hyz2] at hbc ⊢
                exact ih ys zs hab hbc
              · rw [if_neg hyz2] at hbc
                simp at hbc
          · rw [if_neg hxy2] at hab
            simp at hab

theorem lexLt_not_trans :
    ∀ a b c : List Nat, lexLt a b = false → lexLt b c = false →
      lexLt a c = false := by
  intro a
  induction a with
  | nil =>
    intro b c hab hbc
    cases b with
    | nil => exact hbc
    | cons y ys => simp [lexLt] at hab
  | cons x xs ih =>
    intro b c hab hbc
    cases b with
    | nil =>
      cases c with
      | nil => rfl
      | cons z zs => simp [lexLt] at hbc
    | cons y ys =>
      cases c with
      | nil => rfl
      | cons z zs =>
        simp only [lexLt] at hab hbc ⊢
        by_cases hxz : x < z
        · exfalso
          by_cases hxy : x < y
          · rw [if_pos hxy] at hab
            simp at hab
          · rw [if_neg hxy] at hab
            by_cases hyz : y < z
            · rw [if_pos hyz] at hbc
              simp at hbc
            · omega
        · rw [if_neg hxz]
          by_cases hxz2 : x = z
          · rw [if_pos hxz2]
            subst hxz2
            by_cases hxy : x < y
            · rw [if_pos hxy] at hab
              simp at hab
            · rw [if_neg hxy] at hab
              by_cases hxy2 : x = y
              · subst hxy2
                rw [if_pos rfl] at hab
                rw [if_neg (lt_irrefl x), if_pos rfl] at hbc
                exact ih ys zs hab hbc
              · have hyx : y < x := by omega
                rw [if_pos hyx] at hbc
                simp at hbc
          · rw [if_neg hxz2]

end FixNvrtc

namespace FixNvrtc

theorem argmax_fold_spec :
    ∀ (cs : List (List Char)) (c : List Char),
      (cs.foldl (fun best x =>
          if lexLt (version_key best) (version_key x) then x else best) c = c ∨
        cs.foldl (fun best x =>
          if lexLt (version_key best) (version_key x) then x else best) c ∈ cs) ∧
      lexLt (version_key (cs.foldl (fun best x =>
          if lexLt (version_key best) (version_key x) then x else best) c))
        (version_key c) = false ∧
      (∀ x ∈ cs, lexLt (version_key (cs.foldl (fun best x =>
          if lexLt (version_key best) (version_key x) then x else best) c))
        (version_key x) = false) := by
  intro cs
  induction cs with
  | nil =>
    intro c
    refine ⟨Or.inl rfl, lexLt_irrefl _, ?_⟩
    intro x hx
    cases hx
  | cons y ys ih =>
    intro c
    rw [List.foldl_cons]
    obtain ⟨hmem, hbase, hall⟩ :=
      ih (if lexLt (version_key c) (version_key y) then y else c)
    by_cases hcy : lexLt (version_key c) (version_key y) = true
    · rw [if_pos hcy] at hmem hbase hall ⊢
      refine ⟨?_, ?_, ?_⟩
      · rcases hmem with h | h
        · right
          rw [h]
          exact List.mem_cons_self y ys
        · right
          exact List.mem_cons_of_mem y h
      · rcases Bool.eq_false_or_eq_true (lexLt (version_key (ys.foldl
            (fun best x => if lexLt (version_key best) (version_key x) then x
              else best) y)) (version_key c)) with h | h
        · exact absurd (lexLt_trans _ _ _ h hcy) (by rw [hbase]; simp)
        · exact h
      · intro x hx
        rcases List.mem_cons.mp hx with rfl | hx
        · exact hbase
        · exact hall x hx
    · rw [if_neg hcy] at hmem hbase hall ⊢
      have hcy' : lexLt (version_key c) (version_key y) = false :=
        Bool.eq_false_iff.mpr hcy
      refine ⟨?_, ?_, ?_⟩
      · rcases hmem with h | h
        · exact Or.inl h
        · right
          exact List.mem_cons_of_mem y h
      · exact hbase
      · intro x hx
        rcases List.mem_cons.mp hx with rfl | hx
        · exact lexLt_not_trans _ _ _ hbase hcy'
        · exact hall x hx

theorem specKey_max {r : List Char} {cands : List (List Char)}
    (hmax : ∀ c ∈ cands, lexLt (version_key r) (version_key c) = false) :
    ∀ c ∈ cands, lexLt (versionKeySpec r) (versionKeySpec c) = false := by
  intro c hc
  unfold versionKeySpec
  by_cases h1 : version_key r = []
  · rw [if_pos h1]
    have h2 : version_key c = [] := by
      have h := hmax c hc
      rw [h1] at h
      exact (lexLt_nil_left _).mp h
    rw [if_pos h2]
    exact lexLt_irrefl _
  · rw [if_neg h1]
    by_cases h2 : version_key c = []
    · rw [if_pos h2]
      exact lexLt_zero_right _ h1
    · rw [if_neg h2]
      exact hmax c hc

/-- C10: `find_nvrtc_lib` returns `None` exactly when no site-packages
directory or no `libnvrtc-builtins.so*` candidate is found; otherwise it
returns a candidate, and that candidate is maximal among all candidates both
under the list-of-integers ordering of the source's `version_key` and under
the claim's reading of that key in which candidates without a parseable
version sort as `[0]` (`versionKeySpec`). -/
theorem find_nvrtc_lib_spec (sp cands : List (List Char)) :
    (find_nvrtc_lib sp cands = none ↔ sp = [] ∨ cands = []) ∧
      (∀ r, find_nvrtc_lib sp cands = some r →
        r ∈ cands ∧
          (∀ c ∈ cands, lexLt (version_key r) (version_key c) = false) ∧
          (∀ c ∈ cands, lexLt (versionKeySpec r) (versionKeySpec c) = false)) := by
  constructor
  · unfold find_nvrtc_lib
    by_cases hsp : sp.isEmpty
    · rw [if_pos hsp]
      simp [List.isEmpty_iff.mp hsp]
    · rw [if_neg hsp]
      have hne : sp ≠ [] := fun h => hsp (by rw [h]; rfl)
      cases cands with
      | nil => simp
      | cons c cs => simp [hne]
  · intro r hr
    unfold find_nvrtc_lib at hr
    by_cases hsp : sp.isEmpty
    · rw [if_pos hsp] at hr
      cases hr
    · rw [if_neg hsp] at hr
      cases cands with
      | nil => cases hr
      | cons c cs =>
        injection hr with hr
        obtain ⟨hmem, hbase, hall⟩ := argmax_fold_spec cs c
        rw [hr] at hmem hbase hall
        have hrmem : r ∈ c :: cs := by
          rcases hmem with h | h
          · rw [h]
            exact List.mem_cons_self c cs
          · exact List.mem_cons_of_mem c h
        have hrmax : ∀ x ∈ c :: cs,
            lexLt (version_key r) (version_key x) = false := by
          intro x hx
          rcases List.mem_cons.mp hx with rfl | hx
          · exact hbase
          · exact hall x hx
        exact ⟨hrmem, hrmax, specKey_max hrmax⟩

/-- C10 witness: among `a.so.2` and `b.so.13.0` the function picks the
numerically greatest version, which is maximal under both keyings. -/
theorem find_nvrtc_lib_spec_witness :
    find_nvrtc_lib ["sp".toList] ["a.so.2".toList, "b.so.13.0".toList] =
        some "b.so.13.0".toList ∧
      "b.so.13.0".toList ∈ ["a.so.2".toList, "b.so.13.0".toList] ∧
      (∀ c ∈ ["a.so.2".toList, "b.so.13.0".toList],
        lexLt (version_key "b.so.13.0".toList) (version_key c) = false) ∧
      (∀ c ∈ ["a.so.2".toList, "b.so.13.0".toList],
        lexLt (versionKeySpec "b.so.13.0".toList) (versionKeySpec c) = false) :=
  ⟨by decide,
    ((find_nvrtc_lib_spec ["sp".toList]
        ["a.so.2".toList, "b.so.13.0".toList]).2 "b.so.13.0".toList
      (by decide)).1,
    ((find_nvrtc_lib_spec ["sp".toList]
        ["a.so.2".toList, "b.so.13.0".toList]).2 "b.so.13.0".toList
      (by decide)).2.1,
    ((find_nvrtc_lib_spec ["sp".toList]
        ["a.so.2".toList, "b.so.13.0".toList]).2 "b.so.13.0".toList
      (by decide)).2.2⟩

end FixNvrtc
